import Mathlib

/-
Verification of the wordle suggestion engine of this repository
(src/wordle/src/bin/solve.rs, with src/wordle/src/main.rs an earlier
rewrite of the same engine).  Words are embedded as `List Char`, feedback
records (`Clues([Color; 5])`) as `List Color`, and the per-letter
occurrence `HashMap<char, usize>` as a function `Char → Nat` (missing key
and the `Some(0)` entry both behave as 0 under the `*value > 0` guard).
-/

namespace Wordle

/-- The `Color` enum of solve.rs (GRAY is the unused initial state). -/
inductive Color where
  | GRAY
  | BLACK
  | YELLOW
  | GREEN
deriving DecidableEq, Repr

/-- The initial occurrence map of `WordClues::from_solution`: for each
character of the solution, how many times it occurs in the solution
(`solution.word.chars().filter(|&a| a == c).count()`).  Characters absent
from the solution are absent from the Rust map; under the `> 0` guards of
the algorithm that is the same as mapping them to 0, which the
filter-length does. -/
def solutionOccurrences (solution : List Char) : Char → Nat :=
  fun c => (solution.filter (fun a => decide (a = c))).length

/-- The first (green) loop of `WordClues::from_solution`: walk the zipped
guess/solution pairs; at an exact match emit GREEN and decrement the
occurrence entry of the matched character, otherwise emit BLACK (the
`colors` array starts as all BLACK).  The Rust decrement `value - 1` acts
on a count that is always ≥ 1 at a green position, so Nat subtraction
agrees with it. -/
def green_pass : List (Char × Char) → (Char → Nat) → (Char → Nat) × List Color
  | [], occ => (occ, [])
  | (a, b) :: rest, occ =>
    if a = b then
      let res := green_pass rest (fun c => if c = b then occ c - 1 else occ c)
      (res.1, Color.GREEN :: res.2)
    else
      let res := green_pass rest occ
      (res.1, Color.BLACK :: res.2)

/-- The second (yellow) loop of `WordClues::from_solution`: walk the guess
left to right; at a position whose color is not GREEN and whose character
still has a positive occurrence count, emit YELLOW and decrement that
count, otherwise keep the color produced by the green pass. -/
def yellow_pass : List Char → List Color → (Char → Nat) → List Color
  | [], _, _ => []
  | _ :: _, [], _ => []
  | c :: cs, col :: cols, occ =>
    if 0 < occ c ∧ col ≠ Color.GREEN then
      Color.YELLOW :: yellow_pass cs cols (fun d => if d = c then occ c - 1 else occ d)
    else
      col :: yellow_pass cs cols occ

/-- `WordClues::from_solution` of solve.rs: occurrence counts, green pass
over the zipped words, then the yellow pass over the guess.  The Rust
`colors` array is fixed at 5 slots; this model produces one color per
guess position and coincides with the Rust output whenever guess and
solution have the same length (the only case the program exercises). -/
def from_solution (guess solution : List Char) : List Color :=
  let res := green_pass (List.zip guess solution) (solutionOccurrences solution)
  yellow_pass guess res.2 res.1

/-- The per-character translation inside `impl FromStr for Clues`:
`'b' / 'y' / 'g'` map to a color, anything else hits the
`panic!("Unsupported color ...")` arm, modelled as `none`. -/
def color_of_char (c : Char) : Option Color :=
  if c = 'b' then some Color.BLACK
  else if c = 'y' then some Color.YELLOW
  else if c = 'g' then some Color.GREEN
  else none

/-- Mapping `color_of_char` over a chunk of characters, failing (panic)
at the first unsupported one, as `window.map(|c| match c ...)` does. -/
def colors_of_chars : List Char → Option (List Color)
  | [] => some []
  | c :: cs =>
    match color_of_char c, colors_of_chars cs with
    | some col, some cols => some (col :: cols)
    | _, _ => none

/-- `Clues::from_str`: `s.chars().array_chunks::<5>().take(1)` yields the
first 5 characters when the input has at least 5 (any further characters
are dropped), and nothing otherwise, in which case the `.next().unwrap()`
panics, modelled as `none`. -/
def clues_from_str (s : List Char) : Option (List Color) :=
  if 5 ≤ s.length then colors_of_chars (s.take 5) else none

/-- The candidate filtering step of `WordSuggestor::suggest_word`: a bank
word survives iff every recorded clue `(guess, feedback)` satisfies
`WordClues::from_solution(guess, word).get_colors() == feedback`. -/
def possible_solutions (bank : List (List Char))
    (clues : List (List Char × List Color)) : List (List Char) :=
  bank.filter (fun w => clues.all (fun cl => decide (from_solution cl.1 w = cl.2)))

/-- Rust `Iterator::max_by_key` (and the rayon parallel version, which is
documented to return the same result): fold keeping the later element
when keys are equal, so among equally-maximal elements the LAST one is
returned; `none` on an empty iterator. -/
def max_by_key {α : Type} (f : α → Nat) : List α → Option α
  | [] => none
  | x :: xs => some (xs.foldl (fun acc y => if f acc ≤ f y then y else acc) x)

/-- `WordSuggestor::suggest_word`, with the ranker abstracted as a
function from (possible solutions, word) to a score: filter the bank by
the clues, return "" (the empty word) when nothing survives, the unique
survivor when exactly one does, and otherwise the bank entry maximising
the ranker over the whole bank.  The final `.unwrap()` cannot fail there
because a non-empty candidate set forces a non-empty bank; `getD []`
models it. -/
def suggest_word (bank : List (List Char)) (clues : List (List Char × List Color))
    (ranker : List (List Char) → List Char → Nat) : List Char :=
  let ps := possible_solutions bank clues
  if ps.isEmpty then []
  else if ps.length = 1 then ps.headD []
  else (max_by_key (ranker ps) bank).getD []

/-- `LargestUniqueValuesRanker::rank`: the number of distinct feedback
records the candidates yield against the guess word (the size of the
`HashSet<Clues>` collected from them). -/
def largest_unique_values_rank (ps : List (List Char)) (word : List Char) : Nat :=
  ((ps.map (fun solution => from_solution word solution)).dedup).length

/-- Rust `map.values().max()`: the maximum of a collection of counts,
`none` when the collection is empty (where the Rust `.unwrap()` would
panic). -/
def values_max : List Nat → Option Nat
  | [] => none
  | x :: xs => some (xs.foldl Nat.max x)

/-- `LowestMaxBucketRanker::rank`: bucket the candidates by the feedback
record each yields against the guess word, and return
`possible_solutions.len() - max bucket size`.  The bucket-count multiset
of the `HashMap<Clues, usize>` is modelled as the count of each distinct
record; `none` models the panic of `.max().unwrap()` on an empty map. -/
def lowest_max_bucket_rank (ps : List (List Char)) (word : List Char) : Option Nat :=
  let cluesList := ps.map (fun solution => from_solution word solution)
  match values_max (cluesList.dedup.map
      (fun cl => cluesList.countP (fun x => decide (x = cl)))) with
  | none => none
  | some m => some (ps.length - m)

/-- Number of exact (green) matches of character `c` between guess and
solution. -/
def exact_matches (c : Char) (guess solution : List Char) : Nat :=
  (List.zip guess solution).countP (fun p => decide (p.1 = p.2 ∧ p.1 = c))

/-- Number of positions where the guess has character `c` and the
feedback marks YELLOW. -/
def yellow_count (c : Char) (guess : List Char) (out : List Color) : Nat :=
  (List.zip guess out).countP (fun p => decide (p.1 = c ∧ p.2 = Color.YELLOW))

/-- Number of positions strictly before `i` where the guess has
character `c` and the solution does not (the non-green occurrences of `c`
before `i`). -/
def misplaced_before (c : Char) (guess solution : List Char) (i : Nat) : Nat :=
  ((List.zip guess solution).take i).countP (fun p => decide (p.1 = c ∧ p.2 ≠ c))

/-- Sanity check: the model reproduces the feedback vectors asserted by
the test_colors test of the repository. -/
theorem model_agrees_with_repo_tests :
    from_solution "saber".toList "label".toList =
      [Color.BLACK, Color.GREEN, Color.GREEN, Color.GREEN, Color.BLACK] ∧
    from_solution "aheap".toList "woken".toList =
      [Color.BLACK, Color.BLACK, Color.YELLOW, Color.BLACK, Color.BLACK] ∧
    from_solution "blech".toList "delve".toList =
      [Color.BLACK, Color.YELLOW, Color.YELLOW, Color.BLACK, Color.BLACK] ∧
    from_solution "begem".toList "delve".toList =
      [Color.BLACK, Color.GREEN, Color.BLACK, Color.YELLOW, Color.BLACK] ∧
    from_solution "forge".toList "forge".toList =
      [Color.GREEN, Color.GREEN, Color.GREEN, Color.GREEN, Color.GREEN] := by
  decide

/-- The colors produced by the green pass do not depend on the occurrence
map: position `i` is GREEN when the pair matches and BLACK otherwise. -/
theorem green_pass_colors (ps : List (Char × Char)) (occ : Char → Nat) :
    (green_pass ps occ).2 =
      ps.map (fun p => if p.1 = p.2 then Color.GREEN else Color.BLACK) := by
  induction ps generalizing occ with
  | nil => rfl
  | cons p rest ih =>
    obtain ⟨a, b⟩ := p
    by_cases h : a = b
    · simp [green_pass, h, ih]
    · simp [green_pass, h, ih]

/-- The occurrence map left by the green pass: the initial count of each
character minus its number of exact matches. -/
theorem green_pass_occ (ps : List (Char × Char)) (occ : Char → Nat) :
    (green_pass ps occ).1 =
      fun c => occ c - ps.countP (fun p => decide (p.1 = p.2 ∧ p.1 = c)) := by
  induction ps generalizing occ with
  | nil => funext c; simp [green_pass]
  | cons p rest ih =>
    obtain ⟨a, b⟩ := p
    funext c
    by_cases h : a = b
    · subst h
      by_cases hc : c = a
      · subst hc
        simp [green_pass, ih, List.countP_cons]
        omega
      · have hca : ¬(a = a ∧ a = c) := fun hh => hc (hh.2).symm
        have hac : ¬(a = c) := fun hh => hc hh.symm
        simp [green_pass, ih, List.countP_cons, hc, hca, hac]
    · have hne : ¬(a = b ∧ a = c) := fun hh => h hh.1
      simp [green_pass, h, ih, List.countP_cons, hne]

/-- Length of what the yellow pass produces. -/
theorem yellow_pass_length (cs : List Char) :
    ∀ (cols : List Color) (occ : Char → Nat),
      (yellow_pass cs cols occ).length = min cs.length cols.length := by
  induction cs with
  | nil => intro cols occ; simp [yellow_pass]
  | cons c cs ih =>
    intro cols occ
    cases cols with
    | nil => simp [yellow_pass]
    | cons col cols =>
      by_cases h : 0 < occ c ∧ col ≠ Color.GREEN
      · simp only [yellow_pass, if_pos h, List.length_cons, ih]; omega
      · simp only [yellow_pass, if_neg h, List.length_cons, ih]; omega

/-- Positional characterisation of the yellow pass: a GREEN input color
stays GREEN; a non-GREEN position of character `c` becomes YELLOW exactly
when the number of earlier non-GREEN `c` positions is still below the
occurrence budget of `c`, and otherwise keeps its color. -/
theorem yellow_pass_getElem (cs : List Char) :
    ∀ (cols : List Color) (occ : Char → Nat) (i : Nat) (c : Char) (col : Color),
      cs[i]? = some c → cols[i]? = some col →
      (yellow_pass cs cols occ)[i]? = some (
        if col = Color.GREEN then Color.GREEN
        else if ((List.zip cs cols).take i).countP
            (fun p => decide (p.1 = c ∧ p.2 ≠ Color.GREEN)) < occ c
          then Color.YELLOW else col) := by
  induction cs with
  | nil => intro cols occ i c col hc hcol; simp at hc
  | cons c0 cs ih =>
    intro cols occ i c col hc hcol
    cases cols with
    | nil => simp at hcol
    | cons col0 cols =>
      cases i with
      | zero =>
        simp only [List.getElem?_cons_zero, Option.some_inj] at hc hcol
        subst hc
        subst hcol
        simp only [List.take_zero, List.countP_nil]
        rw [yellow_pass]
        by_cases h : 0 < occ c0 ∧ col0 ≠ Color.GREEN
        · rw [if_pos h]
          simp [h.1, h.2]
        · rw [if_neg h]
          by_cases hg : col0 = Color.GREEN
          · simp [hg]
          · have hz : ¬ 0 < occ c0 := fun hp => h ⟨hp, hg⟩
            simp [hg, hz]
      | succ j =>
        simp only [List.getElem?_cons_succ] at hc hcol
        simp only [List.zip_cons_cons, List.take_succ_cons, List.countP_cons]
        rw [yellow_pass]
        by_cases h : 0 < occ c0 ∧ col0 ≠ Color.GREEN
        · rw [if_pos h]
          simp only [List.getElem?_cons_succ]
          rw [ih cols (fun d => if d = c0 then occ c0 - 1 else occ d) j c col hc hcol]
          by_cases hg : col = Color.GREEN
          · rw [if_pos hg, if_pos hg]
          · rw [if_neg hg, if_neg hg]
            refine congrArg some (if_congr ?_ rfl rfl)
            by_cases hcc : c0 = c
            · subst hcc
              have h2 : (if (decide (c0 = c0 ∧ col0 ≠ Color.GREEN)) = true then 1 else 0) = 1 := by
                simp [h.2]
              rw [if_pos rfl, h2]
              have h1 : 0 < occ c0 := h.1
              omega
            · have hcc2 : ¬ c = c0 := fun hh => hcc hh.symm
              have h2 : (if (decide (c0 = c ∧ col0 ≠ Color.GREEN)) = true then 1 else 0) = 0 := by
                simp [hcc]
              rw [if_neg hcc2, h2]
              omega
        · rw [if_neg h]
          simp only [List.getElem?_cons_succ]
          rw [ih cols occ j c col hc hcol]
          by_cases hg : col = Color.GREEN
          · rw [if_pos hg, if_pos hg]
          · rw [if_neg hg, if_neg hg]
            refine congrArg some (if_congr ?_ rfl rfl)
            by_cases hg0 : col0 = Color.GREEN
            · have h2 : (if (decide (c0 = c ∧ col0 ≠ Color.GREEN)) = true then 1 else 0) = 0 := by
                simp [hg0]
              rw [h2]
              omega
            · have hz : occ c0 = 0 := by
                by_contra hne
                exact h ⟨Nat.pos_of_ne_zero hne, hg0⟩
              by_cases hcc : c0 = c
              · subst hcc
                have h2 : (if (decide (c0 = c0 ∧ col0 ≠ Color.GREEN)) = true then 1 else 0) = 1 := by
                  simp [hg0]
                rw [h2]
                omega
              · have h2 : (if (decide (c0 = c ∧ col0 ≠ Color.GREEN)) = true then 1 else 0) = 0 := by
                  simp [hcc]
                rw [h2]
                omega

/-- The yellow pass hands out at most `occ c` YELLOW marks to positions
holding character `c`, provided the incoming colors contain no YELLOW. -/
theorem yellow_pass_count_le (cs : List Char) :
    ∀ (cols : List Color) (occ : Char → Nat) (c : Char),
      (∀ x ∈ cols, x ≠ Color.YELLOW) →
      yellow_count c cs (yellow_pass cs cols occ) ≤ occ c := by
  induction cs with
  | nil => intro cols occ c hcols; simp [yellow_count, yellow_pass]
  | cons c0 cs ih =>
    intro cols occ c hcols
    cases cols with
    | nil => simp [yellow_count, yellow_pass]
    | cons col0 cols =>
      have hcols2 : ∀ x ∈ cols, x ≠ Color.YELLOW :=
        fun x hx => hcols x (List.mem_cons_of_mem _ hx)
      rw [yellow_pass]
      by_cases h : 0 < occ c0 ∧ col0 ≠ Color.GREEN
      · rw [if_pos h]
        by_cases hcc : c0 = c
        · subst hcc
          have le1 := ih cols (fun d => if d = c0 then occ c0 - 1 else occ d) c0 hcols2
          simp [yellow_count] at le1
          have h1 : 0 < occ c0 := h.1
          simp only [yellow_count, List.zip_cons_cons, List.countP_cons]
          simp
          omega
        · have hcc2 : ¬ c = c0 := fun hh => hcc hh.symm
          have le1 := ih cols (fun d => if d = c0 then occ c0 - 1 else occ d) c hcols2
          simp [yellow_count, hcc2] at le1
          simp only [yellow_count, List.zip_cons_cons, List.countP_cons]
          simp [hcc]
          omega
      · rw [if_neg h]
        have hny : col0 ≠ Color.YELLOW := hcols col0 (List.mem_cons_self col0 cols)
        have le1 := ih cols occ c hcols2
        simp [yellow_count] at le1
        simp only [yellow_count, List.zip_cons_cons, List.countP_cons]
        simp [hny]
        omega

/-- Bridge: counting non-GREEN `c` positions against the colors produced
by the green pass is the same as counting positions where the guess has
`c` and the solution does not. -/
theorem green_colors_countP (guess : List Char) :
    ∀ (solution : List Char) (c : Char) (i : Nat),
      ((List.zip guess ((List.zip guess solution).map
          (fun p => if p.1 = p.2 then Color.GREEN else Color.BLACK))).take i).countP
        (fun p => decide (p.1 = c ∧ p.2 ≠ Color.GREEN))
      = ((List.zip guess solution).take i).countP (fun p => decide (p.1 = c ∧ p.2 ≠ c)) := by
  induction guess with
  | nil => intro solution c i; simp
  | cons g gs ih =>
    intro solution c i
    cases solution with
    | nil => simp
    | cons s ss =>
      cases i with
      | zero => simp
      | succ j =>
        simp only [List.zip_cons_cons, List.map_cons, List.take_succ_cons, List.countP_cons]
        rw [ih ss c j]
        congr 1
        by_cases hgs : g = s
        · subst hgs
          have h1 : ¬(g = c ∧ (if g = g then Color.GREEN else Color.BLACK) ≠ Color.GREEN) := by
            simp
          have h2 : ¬(g = c ∧ ¬ g = c) := fun hh => hh.2 hh.1
          simp [h1, h2]
        · have h1 : (if g = s then Color.GREEN else Color.BLACK) = Color.BLACK := if_neg hgs
          rw [h1]
          by_cases hgc : g = c
          · subst hgc
            have h2 : ¬ s = g := fun hh => hgs hh.symm
            simp [h2]
          · simp [hgc]

/-- Positional closed form of `from_solution`: GREEN exactly at exact
matches; elsewhere YELLOW while earlier non-green occurrences of the
letter have not yet consumed the budget
`count_in_solution - exact_matches`, BLACK afterwards. -/
theorem from_solution_getElem (guess solution : List Char) (i : Nat) (c d : Char)
    (hg : guess[i]? = some c) (hs : solution[i]? = some d) :
    (from_solution guess solution)[i]? = some (
      if c = d then Color.GREEN
      else if misplaced_before c guess solution i <
          solutionOccurrences solution c - exact_matches c guess solution
        then Color.YELLOW else Color.BLACK) := by
  have hzip : (List.zip guess solution)[i]? = some (c, d) :=
    List.getElem?_zip_eq_some.mpr ⟨hg, hs⟩
  have hcols : ((green_pass (List.zip guess solution) (solutionOccurrences solution)).2)[i]?
      = some (if c = d then Color.GREEN else Color.BLACK) := by
    rw [green_pass_colors, List.getElem?_map, hzip]
    rfl
  rw [from_solution]
  rw [yellow_pass_getElem guess _ _ i c _ hg hcols]
  rw [green_pass_occ]
  rw [green_pass_colors]
  rw [green_colors_countP guess solution c i]
  by_cases hcd : c = d
  · simp [hcd]
  · have h1 : (if c = d then Color.GREEN else Color.BLACK) = Color.BLACK := if_neg hcd
    rw [h1]
    have h2 : Color.BLACK ≠ Color.GREEN := by decide
    rw [if_neg h2, if_neg hcd]
    simp only [misplaced_before, exact_matches]

/-- A position that holds a value is in range. -/
theorem getElem_some_lt {α : Type} (l : List α) (i : Nat) (a : α)
    (h : l[i]? = some a) : i < l.length := by
  by_contra hge
  rw [List.getElem?_eq_none (Nat.le_of_not_lt hge)] at h
  exact Option.noConfusion h

/-- Claim C1: for 5-letter guess and solution and every letter occurring
in both, `from_solution` marks GREEN exactly at the positions where guess
and solution agree on that letter, and marks at most
`count_in_solution(c) - exact_matches(c)` (a truncated, hence
max-with-zero, subtraction) occurrences of `c` YELLOW; and the two
duplicate-letter vectors of the spec hold concretely. -/
theorem c1_feedback_exact_and_yellow_bound :
    (∀ (guess solution : List Char), guess.length = 5 → solution.length = 5 →
      ∀ c : Char, c ∈ guess → c ∈ solution →
        (∀ i : Nat, guess[i]? = some c →
          ((from_solution guess solution)[i]? = some Color.GREEN ↔
            solution[i]? = some c)) ∧
        yellow_count c guess (from_solution guess solution) ≤
          solutionOccurrences solution c - exact_matches c guess solution) ∧
    from_solution "forze".toList "forge".toList =
      [Color.GREEN, Color.GREEN, Color.GREEN, Color.BLACK, Color.GREEN] ∧
    from_solution "soare".toList "forge".toList =
      [Color.BLACK, Color.GREEN, Color.BLACK, Color.YELLOW, Color.GREEN] := by
  refine ⟨?_, by decide, by decide⟩
  intro guess solution hg5 hs5 c hcg hcs
  constructor
  · intro i hgi
    have hi : i < guess.length := getElem_some_lt guess i c hgi
    have hi5 : i < solution.length := by omega
    have hd : solution[i]? = some (solution[i]) := List.getElem?_eq_getElem hi5
    rw [from_solution_getElem guess solution i c (solution[i]) hgi hd]
    by_cases hcd : c = solution[i]
    · rw [if_pos hcd, hd, hcd]
      simp
    · rw [if_neg hcd]
      constructor
      · intro hsome
        by_cases hlt : misplaced_before c guess solution i <
            solutionOccurrences solution c - exact_matches c guess solution
        · rw [if_pos hlt] at hsome
          exact absurd (Option.some_inj.mp hsome) (by decide)
        · rw [if_neg hlt] at hsome
          exact absurd (Option.some_inj.mp hsome) (by decide)
      · intro hsc
        rw [hd] at hsc
        exact absurd (Option.some_inj.mp hsc).symm hcd
  · have hcols : ∀ x ∈ (green_pass (List.zip guess solution)
        (solutionOccurrences solution)).2, x ≠ Color.YELLOW := by
      rw [green_pass_colors]
      intro x hx
      obtain ⟨p, hp, rfl⟩ := List.mem_map.mp hx
      by_cases hpp : p.1 = p.2
      · simp [hpp]
      · simp [hpp]
    have hb := yellow_pass_count_le guess
      (green_pass (List.zip guess solution) (solutionOccurrences solution)).2
      (green_pass (List.zip guess solution) (solutionOccurrences solution)).1
      c hcols
    have hocc : (green_pass (List.zip guess solution) (solutionOccurrences solution)).1 c
        = solutionOccurrences solution c - exact_matches c guess solution := by
      rw [green_pass_occ]
      simp [exact_matches]
    simp only [from_solution]
    rw [← hocc]
    exact hb

/-- Claim C1, witness at guess "soare", solution "forge", letter o,
position 1. -/
theorem c1_witness :
    (((from_solution "soare".toList "forge".toList)[1]? = some Color.GREEN) ↔
      ("forge".toList)[1]? = some 'o') ∧
    yellow_count 'o' "soare".toList (from_solution "soare".toList "forge".toList) ≤
      solutionOccurrences "forge".toList 'o' -
        exact_matches 'o' "soare".toList "forge".toList := by
  have h := c1_feedback_exact_and_yellow_bound.1 "soare".toList "forge".toList
    (by decide) (by decide) 'o' (by decide) (by decide)
  exact ⟨h.1 1 (by decide), h.2⟩

/-- Claim C2: when letter `c` has more non-green occurrences in the guess
than the solution has unmatched occurrences (the budget
`count_in_solution(c) - exact_matches(c)`), the YELLOW marks for `c` go
to the leftmost non-green positions of `c` in ascending order — position
`i` is YELLOW exactly when fewer than `budget` non-green occurrences of
`c` precede it — and the remaining rightmost excess occurrences are
BLACK. -/
theorem c2_excess_marked_absent (guess solution : List Char) (c : Char)
    (hg5 : guess.length = 5) (hs5 : solution.length = 5)
    (hexcess : solutionOccurrences solution c - exact_matches c guess solution <
      (List.zip guess solution).countP (fun p => decide (p.1 = c ∧ p.2 ≠ c)))
    (i : Nat) (hgi : guess[i]? = some c) (hnc : solution[i]? ≠ some c) :
    (from_solution guess solution)[i]? = some
      (if misplaced_before c guess solution i <
          solutionOccurrences solution c - exact_matches c guess solution
        then Color.YELLOW else Color.BLACK) := by
  have hi : i < guess.length := getElem_some_lt guess i c hgi
  have hi5 : i < solution.length := by omega
  have hd : solution[i]? = some (solution[i]) := List.getElem?_eq_getElem hi5
  have hcd : ¬ c = solution[i] := by
    intro hh
    exact hnc (by rw [hd, hh])
  rw [from_solution_getElem guess solution i c (solution[i]) hgi hd, if_neg hcd]

/-- Claim C2, witness: guess "geese" vs solution "forge" has two
non-green occurrences of e against a budget of zero, and the leftmost of
them (position 1) is marked BLACK. -/
theorem c2_witness :
    (from_solution "geese".toList "forge".toList)[1]? = some
      (if misplaced_before 'e' "geese".toList "forge".toList 1 <
          solutionOccurrences "forge".toList 'e' -
            exact_matches 'e' "geese".toList "forge".toList
        then Color.YELLOW else Color.BLACK) :=
  c2_excess_marked_absent "geese".toList "forge".toList 'e' (by decide) (by decide)
    (by decide) 1 (by decide) (by decide)

/-- Claim C3: the filtering step of suggest_word keeps a bank word iff
every recorded clue reproduces its feedback against that word, and the
result is a sublist of the bank (the bank itself is a pure input, never
mutated). -/
theorem c3_filter_keeps_iff (bank : List (List Char))
    (clues : List (List Char × List Color)) (w : List Char) :
    (w ∈ possible_solutions bank clues ↔
      (w ∈ bank ∧ ∀ cl ∈ clues, from_solution cl.1 w = cl.2)) ∧
    (possible_solutions bank clues).Sublist bank := by
  constructor
  · simp [possible_solutions]
  · exact List.filter_sublist bank

/-- Claim C3, witness: "forge" survives the clue recorded for guess
"forte" against solution "forge". -/
theorem c3_witness :
    "forge".toList ∈ possible_solutions ["forte".toList, "forge".toList]
      [("forte".toList, from_solution "forte".toList "forge".toList)] :=
  ((c3_filter_keeps_iff ["forte".toList, "forge".toList]
      [("forte".toList, from_solution "forte".toList "forge".toList)]
      "forge".toList).1).mpr (by decide)

/-- Claim C4 is false as stated: `max_by_key` keeps the later element on
equal keys, so with the constant ranker (every entry tied at the maximum)
suggest_word returns the second of two bank entries, not the first. -/
theorem c4_counterexample :
    suggest_word ["forge".toList, "forte".toList] [] (fun _ _ => 0) = "forte".toList ∧
    "forte".toList ≠ "forge".toList := by
  refine ⟨by decide, by decide⟩

/-- The fold underlying `max_by_key`: its result occurrence splits the
list so that nothing scores higher anywhere and everything after it
scores strictly lower — i.e. it is the LAST maximiser. -/
theorem foldl_max_last {α : Type} (f : α → Nat) (xs : List α) :
    ∀ x : α,
      ∃ l₁ l₂,
        x :: xs = l₁ ++ (xs.foldl (fun acc y => if f acc ≤ f y then y else acc) x) :: l₂ ∧
        (∀ w ∈ x :: xs, f w ≤ f (xs.foldl (fun acc y => if f acc ≤ f y then y else acc) x)) ∧
        (∀ w ∈ l₂, f w < f (xs.foldl (fun acc y => if f acc ≤ f y then y else acc) x)) := by
  induction xs with
  | nil =>
    intro x
    refine ⟨[], [], rfl, ?_, ?_⟩
    · intro w hw
      rw [List.mem_singleton] at hw
      subst hw
      exact Nat.le_refl _
    · intro w hw
      exact absurd hw (List.not_mem_nil w)
  | cons y ys ih =>
    intro x
    simp only [List.foldl_cons]
    by_cases hxy : f x ≤ f y
    · rw [if_pos hxy]
      obtain ⟨l₁, l₂, heq, hmax, hlast⟩ := ih y
      refine ⟨x :: l₁, l₂, ?_, ?_, hlast⟩
      · rw [List.cons_append, ← heq]
      · intro w hw
        rcases List.mem_cons.mp hw with h | h
        · subst h
          exact Nat.le_trans hxy (hmax y (List.mem_cons_self y ys))
        · exact hmax w h
    · rw [if_neg hxy]
      have hyx : f y < f x := Nat.lt_of_not_le hxy
      obtain ⟨l₁, l₂, heq, hmax, hlast⟩ := ih x
      cases l₁ with
      | nil =>
        rw [List.nil_append] at heq
        have hx : x = ys.foldl (fun acc y => if f acc ≤ f y then y else acc) x := by
          injection heq with h1 h2
        have hys : ys = l₂ := by
          injection heq with h1 h2
        refine ⟨[], y :: ys, ?_, ?_, ?_⟩
        · rw [List.nil_append, ← hx]
        · intro w hw
          rcases List.mem_cons.mp hw with h | h
          · rw [h]
            exact hmax x (List.mem_cons_self x ys)
          · rcases List.mem_cons.mp h with h | h
            · subst h
              exact Nat.le_trans (Nat.le_of_lt hyx) (hmax x (List.mem_cons_self x ys))
            · exact hmax w (List.mem_cons_of_mem x h)
        · intro w hw
          rcases List.mem_cons.mp hw with h | h
          · subst h
            rw [← hx]
            exact hyx
          · rw [hys] at h
            exact hlast w h
      | cons a t =>
        rw [List.cons_append] at heq
        have hxa : x = a := by injection heq with h1 h2
        have hys : ys = t ++ (ys.foldl (fun acc y => if f acc ≤ f y then y else acc) x) :: l₂ := by
          injection heq with h1 h2
        refine ⟨x :: y :: t, l₂, ?_, ?_, hlast⟩
        · rw [List.cons_append, List.cons_append, ← hys]
        · intro w hw
          rcases List.mem_cons.mp hw with h | h
          · rw [h]
            exact hmax x (List.mem_cons_self x ys)
          · rcases List.mem_cons.mp h with h | h
            · subst h
              exact Nat.le_trans (Nat.le_of_lt hyx) (hmax x (List.mem_cons_self x ys))
            · exact hmax w (List.mem_cons_of_mem x h)

/-- Claim C4, amended: with at least two remaining candidates,
suggest_word returns the LAST entry of the bank attaining the maximum
ranker score (nothing scores higher, and every entry after the returned
occurrence scores strictly lower), rather than the first. -/
theorem c4_amended_last_tie (bank : List (List Char))
    (clues : List (List Char × List Color))
    (ranker : List (List Char) → List Char → Nat)
    (h2 : 2 ≤ (possible_solutions bank clues).length) :
    ∃ l₁ l₂,
      bank = l₁ ++ (suggest_word bank clues ranker) :: l₂ ∧
      (∀ w ∈ bank, ranker (possible_solutions bank clues) w ≤
        ranker (possible_solutions bank clues) (suggest_word bank clues ranker)) ∧
      (∀ w ∈ l₂, ranker (possible_solutions bank clues) w <
        ranker (possible_solutions bank clues) (suggest_word bank clues ranker)) := by
  obtain ⟨b, bs, rfl⟩ : ∃ b bs, bank = b :: bs := by
    cases bank with
    | nil => simp [possible_solutions] at h2
    | cons b bs => exact ⟨b, bs, rfl⟩
  have hne : (possible_solutions (b :: bs) clues).isEmpty = false := by
    cases hps : possible_solutions (b :: bs) clues with
    | nil => rw [hps] at h2; simp at h2
    | cons a l => rfl
  have hlen : ¬ (possible_solutions (b :: bs) clues).length = 1 := by omega
  have hs : suggest_word (b :: bs) clues ranker =
      bs.foldl (fun acc y =>
        if ranker (possible_solutions (b :: bs) clues) acc ≤
            ranker (possible_solutions (b :: bs) clues) y then y else acc) b := by
    simp only [suggest_word, max_by_key, hne, hlen]
    simp
  obtain ⟨l₁, l₂, heq, hmax, hlast⟩ :=
    foldl_max_last (ranker (possible_solutions (b :: bs) clues)) bs b
  refine ⟨l₁, l₂, ?_, ?_, ?_⟩
  · rw [hs]; exact heq
  · intro w hw
    rw [hs]
    exact hmax w hw
  · intro w hw
    rw [hs]
    exact hlast w hw

/-- Claim C4, witness for the amended statement at a concrete tied bank
and the constant ranker. -/
theorem c4_witness :
    ∃ l₁ l₂,
      ["forge".toList, "forte".toList] =
        l₁ ++ (suggest_word ["forge".toList, "forte".toList] [] (fun _ _ => 0)) :: l₂ ∧
      (∀ w ∈ ["forge".toList, "forte".toList], (0 : Nat) ≤ 0) ∧
      (∀ w ∈ l₂, (0 : Nat) < 0) :=
  c4_amended_last_tie ["forge".toList, "forte".toList] [] (fun _ _ => 0) (by decide)

/-- A character translates to a color exactly when it is one of b, y, g. -/
theorem color_of_char_isSome (c : Char) :
    (color_of_char c).isSome = true ↔ (c = 'b' ∨ c = 'y' ∨ c = 'g') := by
  rw [color_of_char]
  by_cases hb : c = 'b'
  · simp [hb]
  · rw [if_neg hb]
    by_cases hy : c = 'y'
    · simp [hy]
    · rw [if_neg hy]
      by_cases hg : c = 'g'
      · simp [hg]
      · rw [if_neg hg]
        simp [hb, hy, hg]

/-- A chunk translates iff each of its characters does. -/
theorem colors_of_chars_cons_isSome (c : Char) (cs : List Char) :
    (colors_of_chars (c :: cs)).isSome =
      ((color_of_char c).isSome && (colors_of_chars cs).isSome) := by
  rw [colors_of_chars]
  cases hc : color_of_char c <;> cases hcs : colors_of_chars cs <;> simp [hc, hcs]

/-- A chunk of characters translates iff every character is b, y or g. -/
theorem colors_of_chars_isSome (cs : List Char) :
    (colors_of_chars cs).isSome = true ↔ ∀ c ∈ cs, (c = 'b' ∨ c = 'y' ∨ c = 'g') := by
  induction cs with
  | nil => simp [colors_of_chars]
  | cons c cs ih =>
    rw [colors_of_chars_cons_isSome, Bool.and_eq_true, color_of_char_isSome, ih]
    constructor
    · rintro ⟨h1, h2⟩ d hd
      rcases List.mem_cons.mp hd with h | h
      · subst h; exact h1
      · exact h2 d h
    · intro h
      exact ⟨h c (List.mem_cons_self c cs), fun d hd => h d (List.mem_cons_of_mem c hd)⟩

/-- Claim C5 is false as stated: the 6-character input "bbbbby" has the
wrong length, yet parsing succeeds, silently dropping the trailing
character. -/
theorem c5_counterexample :
    clues_from_str "bbbbby".toList =
      some [Color.BLACK, Color.BLACK, Color.BLACK, Color.BLACK, Color.BLACK] ∧
    ("bbbbby".toList).length ≠ 5 := by
  refine ⟨by decide, by decide⟩

/-- Claim C5, amended: parsing succeeds iff the input has at least 5
characters whose first 5 all lie in the alphabet b, y, g (anything else
panics — modelled as `none` — instead of returning a descriptive error),
and on success any characters beyond the first 5 are silently dropped, so
over-length inputs are coerced rather than rejected. -/
theorem c5_amended_parse_behavior (s : List Char) :
    ((clues_from_str s).isSome = true ↔
      (5 ≤ s.length ∧ ∀ c ∈ s.take 5, (c = 'b' ∨ c = 'y' ∨ c = 'g'))) ∧
    (5 ≤ s.length → ∀ t : List Char, clues_from_str (s ++ t) = clues_from_str s) := by
  constructor
  · rw [clues_from_str]
    by_cases h5 : 5 ≤ s.length
    · rw [if_pos h5, colors_of_chars_isSome]
      simp [h5]
    · rw [if_neg h5]
      simp [h5]
  · intro h5 t
    rw [clues_from_str, clues_from_str, if_pos h5]
    have hlen : 5 ≤ (s ++ t).length := by
      rw [List.length_append]
      omega
    rw [if_pos hlen, List.take_append_of_le_length h5]

/-- Claim C5, witness: appending a junk character to a valid 5-character
code does not change the parse. -/
theorem c5_witness :
    clues_from_str ("bbbbb".toList ++ "x".toList) = clues_from_str "bbbbb".toList :=
  (c5_amended_parse_behavior "bbbbb".toList).2 (by decide) "x".toList

/-- Claim C6: whenever no bank word is consistent with every clue (in
particular for the empty bank), suggest_word returns the empty word, for
any ranker; the model is total, so no panic is involved. -/
theorem c6_no_candidate_returns_empty (bank : List (List Char))
    (clues : List (List Char × List Color))
    (ranker : List (List Char) → List Char → Nat)
    (h : possible_solutions bank clues = []) :
    suggest_word bank clues ranker = [] := by
  simp only [suggest_word, h]
  simp

/-- Claim C6, witness at the empty bank. -/
theorem c6_witness : suggest_word [] [] (fun _ _ => 0) = [] :=
  c6_no_candidate_returns_empty [] [] (fun _ _ => 0) (by decide)

/-- Claim C7: when exactly one bank word is consistent with every clue,
suggest_word returns it for every ranker — the result is independent of
the ranker, which is never consulted on this path. -/
theorem c7_single_candidate (bank : List (List Char))
    (clues : List (List Char × List Color)) (w : List Char)
    (h : possible_solutions bank clues = [w]) :
    ∀ ranker : List (List Char) → List Char → Nat,
      suggest_word bank clues ranker = w := by
  intro ranker
  simp only [suggest_word, h]
  simp

/-- Claim C7, witness at a one-word bank. -/
theorem c7_witness : suggest_word ["forge".toList] [] (fun _ _ => 3) = "forge".toList :=
  c7_single_candidate ["forge".toList] [] "forge".toList (by decide) (fun _ _ => 3)

/-- Claim C8: appending one further clue never enlarges the candidate
set: the filtered list is a sublist (hence a subset) of the one filtered
without it, and its length does not increase. -/
theorem c8_adding_clue_monotone (bank : List (List Char))
    (clues : List (List Char × List Color)) (cl : List Char × List Color) :
    (possible_solutions bank (clues ++ [cl])).Sublist (possible_solutions bank clues) ∧
    possible_solutions bank (clues ++ [cl]) ⊆ possible_solutions bank clues ∧
    (possible_solutions bank (clues ++ [cl])).length ≤
      (possible_solutions bank clues).length := by
  have hsub : (possible_solutions bank (clues ++ [cl])).Sublist
      (possible_solutions bank clues) := by
    apply List.monotone_filter_right
    intro w hw
    rw [List.all_append, Bool.and_eq_true] at hw
    exact hw.1
  exact ⟨hsub, hsub.subset, hsub.length_le⟩

/-- Claim C8, witness at a concrete bank and clue. -/
theorem c8_witness :
    (possible_solutions ["forge".toList]
        ([] ++ [("soare".toList, from_solution "soare".toList "forge".toList)])).Sublist
      (possible_solutions ["forge".toList] []) ∧
    possible_solutions ["forge".toList]
        ([] ++ [("soare".toList, from_solution "soare".toList "forge".toList)]) ⊆
      possible_solutions ["forge".toList] [] ∧
    (possible_solutions ["forge".toList]
        ([] ++ [("soare".toList, from_solution "soare".toList "forge".toList)])).length ≤
      (possible_solutions ["forge".toList] []).length :=
  c8_adding_clue_monotone ["forge".toList] []
    ("soare".toList, from_solution "soare".toList "forge".toList)

/-- Claim C9: the MaximizeUniquePartitions score is at most the number
of candidates, and attains it exactly when every pair of candidates
yields a different feedback record against the guess word. -/
theorem c9_unique_rank_bound (ps : List (List Char)) (word : List Char)
    (hne : ps ≠ []) :
    largest_unique_values_rank ps word ≤ ps.length ∧
    (largest_unique_values_rank ps word = ps.length ↔
      ps.Pairwise (fun a b => from_solution word a ≠ from_solution word b)) := by
  have hsub : ((ps.map (fun solution => from_solution word solution)).dedup).Sublist
      (ps.map (fun solution => from_solution word solution)) := List.dedup_sublist _
  have hlen : (ps.map (fun solution => from_solution word solution)).length = ps.length :=
    List.length_map _ _
  constructor
  · rw [largest_unique_values_rank, ← hlen]
    exact hsub.length_le
  · constructor
    · intro heq
      rw [largest_unique_values_rank] at heq
      have hded : (ps.map (fun solution => from_solution word solution)).dedup =
          ps.map (fun solution => from_solution word solution) := by
        apply hsub.eq_of_length
        rw [heq, hlen]
      have hnodup : (ps.map (fun solution => from_solution word solution)).Nodup := by
        rw [← hded]
        exact List.nodup_dedup _
      exact List.pairwise_map.mp hnodup
    · intro hpw
      have hnodup : (ps.map (fun solution => from_solution word solution)).Nodup :=
        List.pairwise_map.mpr hpw
      rw [largest_unique_values_rank, List.dedup_eq_self.mpr hnodup, hlen]

/-- Claim C9, witness at a two-candidate set. -/
theorem c9_witness :
    largest_unique_values_rank ["forge".toList, "forte".toList] "soare".toList ≤
      (["forge".toList, "forte".toList] : List (List Char)).length ∧
    (largest_unique_values_rank ["forge".toList, "forte".toList] "soare".toList =
        (["forge".toList, "forte".toList] : List (List Char)).length ↔
      (["forge".toList, "forte".toList] : List (List Char)).Pairwise
        (fun a b => from_solution "soare".toList a ≠ from_solution "soare".toList b)) :=
  c9_unique_rank_bound ["forge".toList, "forte".toList] "soare".toList (by decide)

/-- A fold of Nat.max is at least its seed. -/
theorem le_foldl_max (xs : List Nat) : ∀ x : Nat, x ≤ xs.foldl Nat.max x := by
  induction xs with
  | nil => intro x; exact Nat.le_refl x
  | cons y ys ih =>
    intro x
    rw [List.foldl_cons]
    exact Nat.le_trans (Nat.le_max_left x y) (ih (Nat.max x y))

/-- Claim C10: with at least two candidates (the precondition established
by suggest_word before any ranker runs), the bucket map of
LowestMaxBucketRanker is non-empty, so the `.max().unwrap()` cannot
panic, and the returned score lies within [0, candidates - 1]. -/
theorem c10_lowest_max_bucket_no_panic (ps : List (List Char)) (word : List Char)
    (h2 : 2 ≤ ps.length) :
    ∃ score : Nat, lowest_max_bucket_rank ps word = some score ∧
      score ≤ ps.length - 1 := by
  obtain ⟨p, rest, rfl⟩ : ∃ p rest, ps = p :: rest := by
    cases ps with
    | nil => simp at h2
    | cons p rest => exact ⟨p, rest, rfl⟩
  have hmem : from_solution word p ∈
      (p :: rest).map (fun solution => from_solution word solution) :=
    List.mem_map_of_mem _ (List.mem_cons_self p rest)
  have hdmem : from_solution word p ∈
      ((p :: rest).map (fun solution => from_solution word solution)).dedup :=
    List.mem_dedup.mpr hmem
  obtain ⟨q, qs, hdq⟩ : ∃ q qs,
      ((p :: rest).map (fun solution => from_solution word solution)).dedup = q :: qs := by
    cases hd : ((p :: rest).map (fun solution => from_solution word solution)).dedup with
    | nil => rw [hd] at hdmem; exact absurd hdmem (List.not_mem_nil _)
    | cons q qs => exact ⟨q, qs, rfl⟩
  have hq : q ∈ (p :: rest).map (fun solution => from_solution word solution) := by
    apply List.mem_dedup.mp
    rw [hdq]
    exact List.mem_cons_self q qs
  have hcq : 1 ≤ ((p :: rest).map (fun solution => from_solution word solution)).countP
      (fun x => decide (x = q)) :=
    List.countP_pos_iff.mpr ⟨q, hq, by simp⟩
  have hmax : ((p :: rest).map (fun solution => from_solution word solution)).countP
        (fun x => decide (x = q)) ≤
      (qs.map (fun cl =>
        ((p :: rest).map (fun solution => from_solution word solution)).countP
          (fun x => decide (x = cl)))).foldl Nat.max
        (((p :: rest).map (fun solution => from_solution word solution)).countP
          (fun x => decide (x = q))) :=
    le_foldl_max _ _
  refine ⟨(p :: rest).length -
      (qs.map (fun cl =>
        ((p :: rest).map (fun solution => from_solution word solution)).countP
          (fun x => decide (x = cl)))).foldl Nat.max
        (((p :: rest).map (fun solution => from_solution word solution)).countP
          (fun x => decide (x = q))), ?_, ?_⟩
  · rw [lowest_max_bucket_rank]
    rw [hdq]
    rfl
  · omega

/-- Claim C10, witness at a two-candidate set. -/
theorem c10_witness :
    ∃ score : Nat,
      lowest_max_bucket_rank ["forge".toList, "forte".toList] "soare".toList = some score ∧
      score ≤ (["forge".toList, "forte".toList] : List (List Char)).length - 1 :=
  c10_lowest_max_bucket_no_panic ["forge".toList, "forte".toList] "soare".toList (by decide)

end Wordle
